import Mathlib

/-!
Verification of the cyclic run-length slot encoder of
`STGCEncoderProducer/STGC_Encoder_producer.py`.

The Python source is embedded shallowly:

* `rawScan` is the scanning `for bit_pos in range(bits_count)` loop of the
  inner function `get_slots` of `produce_slots` (lines 76–92), written with an
  explicit fuel argument equal to the number of remaining loop iterations.
* `get_slots` adds the boundary-merge step (lines 93–98).  Python list
  indexing on an empty list raises `IndexError`; the embedding returns
  `Option`, with `none` for the raising executions (`slots[0]` on an empty
  run list, and `slots[0] = ...` after `del slots[-1]` has emptied the list).
* `patternValid` is the assertion
  `sorted(set(self.bits_pattern)) == [0, 1]` of `UserParameters.__init__`
  (line 55).
* `bits_pattern` is the hard-coded pattern of line 48.
* `bit_length_angle` is line 54, and `produce_slots_angles` is the
  `start_angle` / `arc_length` bookkeeping of the slot loop of
  `produce_slots` (lines 115–128), recorded as the list of
  (start angle, sweep angle) pairs, one per run.
* `sensor_outer_radius`, `head_radius`, `slots_disk_outer_radius`,
  `slots_disk_inner_radius`, `head_center_distance` are the derived radii of
  `UserParameters.__init__` (lines 57–62), over an arbitrary field so that
  the definitions stay executable.
-/

/-- The scanning loop of `get_slots` (lines 80–92 of the source).  The first
`Nat` argument is the number of remaining loop iterations
(`bits_count - bit_pos`); `bit_pos` and `current_length` are the loop
variables.  In-bounds indexing `pattern[i]` is rendered as `List.getD` with
an irrelevant default. -/
def rawScanAux (pattern : List Nat) : Nat → Nat → Nat → List (Nat × Nat)
  | 0, _, _ => []
  | remaining + 1, bit_pos, current_length =>
    let current_bit := pattern.getD bit_pos 0
    let next_bit :=
      if bit_pos < pattern.length - 1 then pattern.getD (bit_pos + 1) 0
      else pattern.getD 0 0
    if current_bit ≠ next_bit ∨ bit_pos = pattern.length - 1 then
      (current_bit, current_length) :: rawScanAux pattern remaining (bit_pos + 1) 1
    else
      rawScanAux pattern remaining (bit_pos + 1) (current_length + 1)

/-- The raw (pre-merge) run list produced by the scanning loop of
`get_slots`: the loop runs for `bits_count = len(pattern)` iterations
starting at `bit_pos = 0` with `current_length = 1`. -/
def rawScan (pattern : List Nat) : List (Nat × Nat) :=
  rawScanAux pattern pattern.length 0 1

/-- The boundary-merge step of `get_slots` (lines 93–98):
`if slots[0][0] == slots[-1][0]: extra_length = slots[-1][1];
del slots[-1]; slots[0] = (slots[0][0], slots[0][1] + extra_length)`.
`none` models the `IndexError` executions of the Python statements:
evaluating `slots[0]` on an empty run list (empty pattern), and the
re-assignment `slots[0] = ...` after `del slots[-1]` has removed the only
run (all-identical pattern). -/
def mergeEdgeSlots : List (Nat × Nat) → Option (List (Nat × Nat))
  | [] => none
  | first :: rest =>
    if first.1 = ((first :: rest).getLast (List.cons_ne_nil first rest)).1 then
      match (first :: rest).dropLast with
      | [] => none
      | f :: r =>
        some ((f.1, f.2 + ((first :: rest).getLast (List.cons_ne_nil first rest)).2) :: r)
    else some (first :: rest)

/-- The inner function `get_slots` of `produce_slots` (lines 76–98): the raw
scanning loop followed by the merge of the edge slots. -/
def get_slots (pattern : List Nat) : Option (List (Nat × Nat)) :=
  mergeEdgeSlots (rawScan pattern)

/-- The pattern assertion of `UserParameters.__init__` (line 55):
`sorted(set(self.bits_pattern)) == [0, 1]`.  `set` is rendered as `dedup`,
`sorted` as an insertion sort by `≤`. -/
def patternValid (bits_pattern : List Nat) : Bool :=
  decide (bits_pattern.dedup.insertionSort (· ≤ ·) = [0, 1])

/-- The hard-coded bit pattern of `UserParameters.__init__` (line 48):
`'000000000000111000000110000001111111111111000111111001111110'`. -/
def bits_pattern : List Nat :=
  [0,0,0,0,0,0,0,0,0,0,0,0,1,1,1,0,0,0,0,0,0,1,1,0,0,0,0,0,0,
   1,1,1,1,1,1,1,1,1,1,1,1,1,0,0,0,1,1,1,1,1,1,0,0,1,1,1,1,1,1,0]

/-- `self.bit_length_angle = (2 * math.pi) / len(self.bits_pattern)`
(line 54), with the value of `math.pi` passed as a parameter so that the
definition is executable over any field. -/
def bit_length_angle {α : Type} [Field α] (pi : α) (bits_count : Nat) : α :=
  (2 * pi) / (bits_count : α)

/-- The `start_angle` walk of the slot loop of `produce_slots`
(lines 115–128): starting from `start_angle = 0`, each slot contributes the
pair `(start_angle, arc_length)` with
`arc_length = slot[1] * bit_length_angle`, after which
`start_angle += arc_length`. -/
def produce_slots_angles {α : Type} [Semiring α] (bit_length_angle : α) :
    α → List (Nat × Nat) → List (α × α)
  | _, [] => []
  | start_angle, slot :: rest =>
    (start_angle, (slot.2 : α) * bit_length_angle) ::
      produce_slots_angles bit_length_angle
        (start_angle + (slot.2 : α) * bit_length_angle) rest

/-- `self.sensor_outer_radius = self.sensor_outer_diameter / 2` (line 57). -/
def sensor_outer_radius {α : Type} [Field α] (sensor_outer_diameter : α) : α :=
  sensor_outer_diameter / 2

/-- `self.head_radius = self.head_diameter / 2` (line 58). -/
def head_radius {α : Type} [Field α] (head_diameter : α) : α :=
  head_diameter / 2

/-- `self.slots_disk_outer_radius = self.sensor_outer_radius -
self.ports_disk_to_slots_gap` (line 59). -/
def slots_disk_outer_radius {α : Type} [Field α]
    (sensor_outer_diameter ports_disk_to_slots_gap : α) : α :=
  sensor_outer_radius sensor_outer_diameter - ports_disk_to_slots_gap

/-- `self.slots_disk_inner_radius = self.slots_disk_outer_radius -
self.head_diameter - self.head_to_disk_gap * 2` (line 60). -/
def slots_disk_inner_radius {α : Type} [Field α]
    (sensor_outer_diameter ports_disk_to_slots_gap head_diameter head_to_disk_gap : α) : α :=
  slots_disk_outer_radius sensor_outer_diameter ports_disk_to_slots_gap -
    head_diameter - head_to_disk_gap * 2

/-- `self.head_center_distance = self.slots_disk_inner_radius +
self.head_to_disk_gap + self.head_diameter / 2` (line 62). -/
def head_center_distance {α : Type} [Field α]
    (sensor_outer_diameter ports_disk_to_slots_gap head_diameter head_to_disk_gap : α) : α :=
  slots_disk_inner_radius sensor_outer_diameter ports_disk_to_slots_gap
      head_diameter head_to_disk_gap +
    head_to_disk_gap + head_diameter / 2

/-- Sum of the run lengths of a run list (spec §8, first property). -/
def sumLengths (slots : List (Nat × Nat)) : Nat :=
  (slots.map Prod.snd).sum

/-- Concatenation of each run's bit value repeated run-length many times, in
run order (spec §8, round-trip property). -/
def decodeRuns (slots : List (Nat × Nat)) : List Nat :=
  (slots.map fun slot => List.replicate slot.2 slot.1).flatten

/-- No two circularly consecutive runs — each run and its successor,
including the last run followed by the first — have equal bit value
(spec §8 / data model). -/
def noCircAdjacentEqualValues (slots : List (Nat × Nat)) : Prop :=
  ∀ i, i < slots.length →
    (slots.getD i (0, 0)).1 ≠ (slots.getD ((i + 1) % slots.length) (0, 0)).1

/-- Number of circular bit transitions of a pattern: the number of indices
`i` in `0..N-1` with `pattern[i] ≠ pattern[(i+1) mod N]`. -/
def circularTransitions (pattern : List Nat) : Nat :=
  (List.range pattern.length).countP fun i =>
    decide (pattern.getD i 0 ≠ pattern.getD ((i + 1) % pattern.length) 0)

/-- Structural form of the scanning loop: `scanList current_length l` is the
run list the loop emits on the remaining bits `l` with a current run of
length `current_length` already open.  The wrap-around comparison of the
last iteration is irrelevant to the emitted runs (the disjunct
`bit_pos == bits_count - 1` forces emission there), so the loop is linear
run-length encoding; `rawScanAux_eq_scanList` proves the equivalence. -/
def scanList (current_length : Nat) : List Nat → List (Nat × Nat)
  | [] => []
  | [a] => [(a, current_length)]
  | a :: b :: rest =>
    if a ≠ b then (a, current_length) :: scanList 1 (b :: rest)
    else scanList (current_length + 1) (b :: rest)

/-- Number of non-circular (adjacent-pair) transitions of a pattern. -/
def innerT : List Nat → Nat
  | a :: b :: rest => (if a = b then 0 else 1) + innerT (b :: rest)
  | _ => 0

/-- The scanning loop is linear run-length encoding: on the suffix starting
at `bit_pos`, with `remaining` iterations left, it emits exactly the runs of
that suffix, the first one lengthened by the already-open run. -/
lemma rawScanAux_eq_scanList (pattern : List Nat) :
    ∀ remaining bit_pos current_length,
      bit_pos + remaining = pattern.length →
      rawScanAux pattern remaining bit_pos current_length =
        scanList current_length (pattern.drop bit_pos) := by
  intro remaining
  induction remaining with
  | zero =>
    intro pos cur h
    rw [List.drop_eq_nil_of_le (by omega)]
    rfl
  | succ rem ih =>
    intro pos cur h
    have hpos : pos < pattern.length := by omega
    have hdrop : pattern.drop pos = pattern[pos] :: pattern.drop (pos + 1) :=
      List.drop_eq_getElem_cons hpos
    have hgd : pattern.getD pos 0 = pattern[pos] := List.getD_eq_getElem pattern 0 hpos
    by_cases hlast : pos = pattern.length - 1
    · have hrem : rem = 0 := by omega
      subst hrem
      have hdrop1 : pattern.drop (pos + 1) = [] := List.drop_eq_nil_of_le (by omega)
      rw [hdrop, hdrop1]
      simp only [rawScanAux]
      rw [if_pos (Or.inr hlast), hgd]
      rfl
    · have hlt : pos < pattern.length - 1 := by omega
      have hpos1 : pos + 1 < pattern.length := by omega
      have hdrop1 : pattern.drop (pos + 1) = pattern[pos + 1] :: pattern.drop (pos + 2) :=
        List.drop_eq_getElem_cons hpos1
      have hgd1 : pattern.getD (pos + 1) 0 = pattern[pos + 1] :=
        List.getD_eq_getElem pattern 0 hpos1
      rw [hdrop, hdrop1]
      simp only [rawScanAux]
      rw [if_pos hlt, hgd, hgd1]
      by_cases hab : pattern[pos] = pattern[pos + 1]
      · rw [if_neg (by simp [hab, hlast])]
        rw [ih (pos + 1) (cur + 1) (by omega), hdrop1]
        simp [scanList, hab]
      · rw [if_pos (Or.inl hab)]
        rw [ih (pos + 1) 1 (by omega), hdrop1]
        simp [scanList, hab]

/-- `rawScan` is linear run-length encoding of the whole pattern. -/
lemma rawScan_eq_scanList (pattern : List Nat) : rawScan pattern = scanList 1 pattern := by
  have h := rawScanAux_eq_scanList pattern pattern.length 0 1 (by omega)
  simpa [rawScan] using h

lemma scanList_ne_nil (l : List Nat) : ∀ cur a, scanList cur (a :: l) ≠ [] := by
  induction l with
  | nil => intro cur a; simp [scanList]
  | cons b t ih =>
    intro cur a
    by_cases hab : a = b
    · simpa [scanList, hab] using ih (cur + 1) b
    · simp [scanList, hab]

lemma sumLengths_cons (x : Nat × Nat) (l : List (Nat × Nat)) :
    sumLengths (x :: l) = x.2 + sumLengths l := by
  simp [sumLengths]

lemma sumLengths_append (l₁ l₂ : List (Nat × Nat)) :
    sumLengths (l₁ ++ l₂) = sumLengths l₁ + sumLengths l₂ := by
  simp [sumLengths]

lemma sumLengths_scanList (l : List Nat) :
    ∀ cur a, sumLengths (scanList cur (a :: l)) = cur + l.length := by
  induction l with
  | nil => intro cur a; simp [scanList, sumLengths]
  | cons b t ih =>
    intro cur a
    by_cases hab : a = b
    · rw [show scanList cur (a :: b :: t) = scanList (cur + 1) (b :: t) by
        simp [scanList, hab]]
      rw [ih (cur + 1) b]
      simp; omega
    · rw [show scanList cur (a :: b :: t) = (a, cur) :: scanList 1 (b :: t) by
        simp [scanList, hab]]
      rw [sumLengths_cons, ih 1 b]
      simp; omega

lemma scanList_head_fst (l : List Nat) :
    ∀ cur a, (scanList cur (a :: l)).head?.map Prod.fst = some a := by
  induction l with
  | nil => intro cur a; simp [scanList]
  | cons b t ih =>
    intro cur a
    by_cases hab : a = b
    · rw [show scanList cur (a :: b :: t) = scanList (cur + 1) (b :: t) by
        simp [scanList, hab]]
      rw [ih (cur + 1) b, hab]
    · rw [show scanList cur (a :: b :: t) = (a, cur) :: scanList 1 (b :: t) by
        simp [scanList, hab]]
      simp

lemma scanList_getLast_fst (l : List Nat) :
    ∀ cur a, (scanList cur (a :: l)).getLast?.map Prod.fst = (a :: l).getLast? := by
  induction l with
  | nil => intro cur a; simp [scanList]
  | cons b t ih =>
    intro cur a
    have hlast : (a :: b :: t).getLast? = (b :: t).getLast? := List.getLast?_cons_cons
    by_cases hab : a = b
    · rw [show scanList cur (a :: b :: t) = scanList (cur + 1) (b :: t) by
        simp [scanList, hab]]
      rw [ih (cur + 1) b, hlast]
    · rcases hsc : scanList 1 (b :: t) with _ | ⟨y, ys⟩
      · exact absurd hsc (scanList_ne_nil t 1 b)
      · rw [show scanList cur (a :: b :: t) = (a, cur) :: scanList 1 (b :: t) by
          simp [scanList, hab]]
        rw [hsc, List.getLast?_cons_cons, ← hsc, ih 1 b, hlast]

lemma scanList_chain (l : List Nat) :
    ∀ cur a, List.Chain' (fun r s => r.1 ≠ s.1) (scanList cur (a :: l)) := by
  induction l with
  | nil => intro cur a; simp [scanList]
  | cons b t ih =>
    intro cur a
    by_cases hab : a = b
    · rw [show scanList cur (a :: b :: t) = scanList (cur + 1) (b :: t) by
        simp [scanList, hab]]
      exact ih (cur + 1) b
    · rw [show scanList cur (a :: b :: t) = (a, cur) :: scanList 1 (b :: t) by
        simp [scanList, hab]]
      rw [List.chain'_cons']
      refine ⟨?_, ih 1 b⟩
      intro y hy
      have := scanList_head_fst t 1 b
      rw [hy] at this
      simp at this
      simpa [this] using hab

lemma decodeRuns_cons (x : Nat × Nat) (l : List (Nat × Nat)) :
    decodeRuns (x :: l) = List.replicate x.2 x.1 ++ decodeRuns l := by
  simp [decodeRuns]

lemma decodeRuns_append (l₁ l₂ : List (Nat × Nat)) :
    decodeRuns (l₁ ++ l₂) = decodeRuns l₁ ++ decodeRuns l₂ := by
  simp [decodeRuns]

lemma decodeRuns_scanList (l : List Nat) :
    ∀ c a, decodeRuns (scanList (c + 1) (a :: l)) = List.replicate (c + 1) a ++ l := by
  induction l with
  | nil => intro c a; simp [scanList, decodeRuns]
  | cons b t ih =>
    intro c a
    by_cases hab : a = b
    · rw [show scanList (c + 1) (a :: b :: t) = scanList (c + 1 + 1) (b :: t) by
        simp [scanList, hab]]
      rw [ih (c + 1) b]
      subst hab
      rw [show List.replicate (c + 1 + 1) a = List.replicate (c + 1) a ++ [a] by
        simp [List.replicate_add]]
      simp
    · rw [show scanList (c + 1) (a :: b :: t) = (a, c + 1) :: scanList 1 (b :: t) by
        simp [scanList, hab]]
      rw [decodeRuns_cons]
      have := ih 0 b
      simp only [Nat.zero_add] at this
      rw [this]
      simp

lemma length_scanList (l : List Nat) :
    ∀ cur a, (scanList cur (a :: l)).length = innerT (a :: l) + 1 := by
  induction l with
  | nil => intro cur a; simp [scanList, innerT]
  | cons b t ih =>
    intro cur a
    by_cases hab : a = b
    · rw [show scanList cur (a :: b :: t) = scanList (cur + 1) (b :: t) by
        simp [scanList, hab]]
      rw [ih (cur + 1) b]
      simp [innerT, hab]
    · rw [show scanList cur (a :: b :: t) = (a, cur) :: scanList 1 (b :: t) by
        simp [scanList, hab]]
      rw [List.length_cons, ih 1 b]
      simp [innerT, hab]
      omega

lemma scanList_snd_pos (l : List Nat) :
    ∀ cur a, 1 ≤ cur → ∀ r ∈ scanList cur (a :: l), 1 ≤ r.2 := by
  induction l with
  | nil =>
    intro cur a hcur r hr
    simp [scanList] at hr
    subst hr; exact hcur
  | cons b t ih =>
    intro cur a hcur r hr
    by_cases hab : a = b
    · rw [show scanList cur (a :: b :: t) = scanList (cur + 1) (b :: t) by
        simp [scanList, hab]] at hr
      exact ih (cur + 1) b (by omega) r hr
    · rw [show scanList cur (a :: b :: t) = (a, cur) :: scanList 1 (b :: t) by
        simp [scanList, hab]] at hr
      rcases List.mem_cons.mp hr with h | h
      · subst h; exact hcur
      · exact ih 1 b le_rfl r h

lemma innerT_eq_zero_all_eq (l : List Nat) :
    ∀ a, innerT (a :: l) = 0 → ∀ x ∈ a :: l, x = a := by
  induction l with
  | nil => intro a _ x hx; simpa using hx
  | cons b t ih =>
    intro a h x hx
    have hab : a = b := by
      by_contra hne
      simp [innerT, hne] at h
    rw [innerT, if_pos hab, Nat.zero_add] at h
    rcases List.mem_cons.mp hx with h' | h'
    · exact h'
    · rw [hab]; exact ih b h x h'

lemma innerT_pos_of_both (p : List Nat) (h0 : 0 ∈ p) (h1 : 1 ∈ p) : 1 ≤ innerT p := by
  rcases p with _ | ⟨a, l⟩
  · simp at h0
  · by_contra h
    have hz : innerT (a :: l) = 0 := by omega
    have e0 := innerT_eq_zero_all_eq l a hz 0 h0
    have e1 := innerT_eq_zero_all_eq l a hz 1 h1
    omega

lemma getD_length_sub_one {α : Type} (d : α) (l : List α) (hl : l ≠ []) :
    l.getD (l.length - 1) d = l.getLast hl := by
  induction l with
  | nil => exact absurd rfl hl
  | cons a t ih =>
    rcases t with _ | ⟨b, t'⟩
    · rfl
    · have h : (a :: b :: t').length - 1 = (b :: t').length - 1 + 1 := by
        simp only [List.length_cons]; omega
      rw [h, List.getD_cons_succ, ih (List.cons_ne_nil b t'),
        List.getLast_cons (List.cons_ne_nil b t')]

lemma mergeEdgeSlots_single (x : Nat × Nat) : mergeEdgeSlots [x] = none := by
  simp only [mergeEdgeSlots]
  rw [if_pos (show x.1 = ([x].getLast (List.cons_ne_nil x [])).1 from rfl)]
  rfl

lemma mergeEdgeSlots_merge (first r₁ : Nat × Nat) (rest : List (Nat × Nat))
    (hc : first.1 = ((first :: r₁ :: rest).getLast (List.cons_ne_nil first (r₁ :: rest))).1) :
    mergeEdgeSlots (first :: r₁ :: rest) =
      some ((first.1,
        first.2 + ((first :: r₁ :: rest).getLast (List.cons_ne_nil first (r₁ :: rest))).2) ::
          (r₁ :: rest).dropLast) := by
  simp only [mergeEdgeSlots]
  rw [if_pos hc]
  rfl

lemma mergeEdgeSlots_no_merge (first r₁ : Nat × Nat) (rest : List (Nat × Nat))
    (hc : ¬ first.1 =
      ((first :: r₁ :: rest).getLast (List.cons_ne_nil first (r₁ :: rest))).1) :
    mergeEdgeSlots (first :: r₁ :: rest) = some (first :: r₁ :: rest) := by
  simp only [mergeEdgeSlots]
  rw [if_neg hc]

/-- Structure of a successful `get_slots` run: the raw scan is a run list
with at least two runs and pairwise-distinct adjacent values, and the result
is either the raw list itself (edge values differ) or the raw list with its
last run folded into the first (edge values equal). -/
lemma get_slots_some_structure (p : List Nat) (l : List (Nat × Nat))
    (h : get_slots p = some l) :
    ∃ first rest lastRun, rawScan p = first :: rest ∧ rest ≠ [] ∧
      (first :: rest).getLast (List.cons_ne_nil first rest) = lastRun ∧
      List.Chain' (fun r s => r.1 ≠ s.1) (first :: rest) ∧
      ((first.1 ≠ lastRun.1 ∧ l = first :: rest) ∨
        (first.1 = lastRun.1 ∧ rest.dropLast ≠ [] ∧
          l = (first.1, first.2 + lastRun.2) :: rest.dropLast)) := by
  unfold get_slots at h
  rcases hr : rawScan p with _ | ⟨first, rest⟩
  · rw [hr] at h
    exact absurd h (by simp [mergeEdgeSlots])
  · rw [hr] at h
    have hchain : List.Chain' (fun r s => r.1 ≠ s.1) (first :: rest) := by
      rcases p with _ | ⟨a, t⟩
      · simp [rawScan, rawScanAux] at hr
      · rw [← hr, rawScan_eq_scanList]
        exact scanList_chain t 1 a
    rcases rest with _ | ⟨r₁, rest'⟩
    · rw [mergeEdgeSlots_single] at h
      exact absurd h (by simp)
    · refine ⟨first, r₁ :: rest',
        (first :: r₁ :: rest').getLast (List.cons_ne_nil first (r₁ :: rest')),
        rfl, by simp, rfl, hchain, ?_⟩
      by_cases hc :
          first.1 = ((first :: r₁ :: rest').getLast (List.cons_ne_nil first (r₁ :: rest'))).1
      · right
        rw [mergeEdgeSlots_merge first r₁ rest' hc] at h
        have hdl : (r₁ :: rest').dropLast ≠ [] := by
          rcases rest' with _ | ⟨r₂, rest''⟩
          · exfalso
            have hadj : first.1 ≠ r₁.1 := (List.chain'_cons.mp hchain).1
            exact hadj (by simpa [List.getLast] using hc)
          · simp
        simp only [Option.some.injEq] at h
        exact ⟨hc, hdl, h.symm⟩
      · left
        rw [mergeEdgeSlots_no_merge first r₁ rest' hc] at h
        simp only [Option.some.injEq] at h
        exact ⟨hc, h.symm⟩

lemma get_slots_of_single (p : List Nat) (x : Nat × Nat) (h : rawScan p = [x]) :
    get_slots p = none := by
  unfold get_slots
  rw [h, mergeEdgeSlots_single]

lemma get_slots_isSome_of_two (p : List Nat) (first r₁ : Nat × Nat)
    (rest : List (Nat × Nat)) (h : rawScan p = first :: r₁ :: rest) :
    ∃ l, get_slots p = some l := by
  unfold get_slots
  rw [h]
  by_cases hc :
      first.1 = ((first :: r₁ :: rest).getLast (List.cons_ne_nil first (r₁ :: rest))).1
  · rw [mergeEdgeSlots_merge first r₁ rest hc]
    exact ⟨_, rfl⟩
  · rw [mergeEdgeSlots_no_merge first r₁ rest hc]
    exact ⟨_, rfl⟩

/-- A pattern containing both a 0 and a 1 has at least two raw runs, so the
boundary merge cannot empty the run list: `get_slots` succeeds. -/
lemma get_slots_isSome_of_both (p : List Nat) (h0 : 0 ∈ p) (h1 : 1 ∈ p) :
    ∃ l, get_slots p = some l := by
  rcases hp : p with _ | ⟨a, t⟩
  · subst hp; simp at h0
  · subst hp
    have hlen : (scanList 1 (a :: t)).length = innerT (a :: t) + 1 := length_scanList t 1 a
    have hT : 1 ≤ innerT (a :: t) := innerT_pos_of_both _ h0 h1
    rcases hsc : scanList 1 (a :: t) with _ | ⟨f, _ | ⟨r₁, rest⟩⟩
    · exact absurd hsc (scanList_ne_nil t 1 a)
    · rw [hsc] at hlen; simp at hlen; omega
    · exact get_slots_isSome_of_two _ f r₁ rest (by rw [rawScan_eq_scanList, hsc])

/-- Whenever `get_slots` returns a run list, its lengths sum to the length
of the pattern. -/
lemma sumLengths_get_slots (p : List Nat) (l : List (Nat × Nat))
    (h : get_slots p = some l) : sumLengths l = p.length := by
  obtain ⟨first, rest, lastRun, hr, hne, hlastEq, _, hcase⟩ :=
    get_slots_some_structure p l h
  rcases p with _ | ⟨a, t⟩
  · simp [rawScan, rawScanAux] at hr
  · have hsum : sumLengths (first :: rest) = (a :: t).length := by
      rw [← hr, rawScan_eq_scanList, sumLengths_scanList]
      simp only [List.length_cons]
      omega
    rcases hcase with ⟨_, hl⟩ | ⟨_, _, hl⟩
    · rw [hl]; exact hsum
    · have hdl : (first :: rest).dropLast = first :: rest.dropLast := by
        rcases rest with _ | ⟨x, xs⟩
        · exact absurd rfl hne
        · rfl
      have hsplit : first :: rest = (first :: rest.dropLast) ++ [lastRun] := by
        rw [← hlastEq, ← hdl]
        exact (List.dropLast_append_getLast _).symm
      have h1 : sumLengths (first :: rest) =
          first.2 + sumLengths rest.dropLast + lastRun.2 := by
        rw [hsplit, sumLengths_append, sumLengths_cons, sumLengths_cons]
        simp [sumLengths]
      rw [hl, sumLengths_cons]
      show first.2 + lastRun.2 + sumLengths rest.dropLast = (a :: t).length
      omega

/-- Whenever `get_slots` returns a run list, decoding it reproduces the
pattern read circularly from some starting offset `s < N`. -/
lemma decodeRuns_get_slots (p : List Nat) (l : List (Nat × Nat))
    (h : get_slots p = some l) :
    ∃ s, s < p.length ∧ decodeRuns l = p.rotate s := by
  obtain ⟨first, rest, lastRun, hr, hne, hlastEq, _, hcase⟩ :=
    get_slots_some_structure p l h
  rcases p with _ | ⟨a, t⟩
  · simp [rawScan, rawScanAux] at hr
  · have hdecode : decodeRuns (first :: rest) = a :: t := by
      rw [← hr, rawScan_eq_scanList]
      have := decodeRuns_scanList t 0 a
      simpa using this
    rcases hcase with ⟨_, hl⟩ | ⟨hc, _, hl⟩
    · exact ⟨0, by simp, by rw [hl, List.rotate_zero, hdecode]⟩
    · have hdl : (first :: rest).dropLast = first :: rest.dropLast := by
        rcases rest with _ | ⟨x, xs⟩
        · exact absurd rfl hne
        · rfl
      have hsplit : first :: rest = (first :: rest.dropLast) ++ [lastRun] := by
        rw [← hlastEq, ← hdl]
        exact (List.dropLast_append_getLast _).symm
      have hX : decodeRuns (first :: rest.dropLast) ++
          List.replicate lastRun.2 lastRun.1 = a :: t := by
        calc decodeRuns (first :: rest.dropLast) ++ List.replicate lastRun.2 lastRun.1
            = decodeRuns ((first :: rest.dropLast) ++ [lastRun]) := by
              rw [decodeRuns_append]; simp [decodeRuns]
          _ = decodeRuns (first :: rest) := by rw [← hsplit]
          _ = a :: t := hdecode
      have hlen : (decodeRuns (first :: rest.dropLast)).length + lastRun.2 =
          (a :: t).length := by
        have := congrArg List.length hX
        simpa using this
      have hpos : 1 ≤ lastRun.2 := by
        have hmem : lastRun ∈ scanList 1 (a :: t) := by
          rw [← rawScan_eq_scanList, hr, ← hlastEq]
          exact List.getLast_mem _
        exact scanList_snd_pos t 1 a le_rfl _ hmem
      refine ⟨(decodeRuns (first :: rest.dropLast)).length, ?_, ?_⟩
      · simp only [List.length_cons] at hlen ⊢
        omega
      · rw [hl, decodeRuns_cons]
        have hrepl : List.replicate ((first.1, first.2 + lastRun.2) : Nat × Nat).2
              ((first.1, first.2 + lastRun.2) : Nat × Nat).1 ++
              decodeRuns rest.dropLast =
            List.replicate lastRun.2 lastRun.1 ++ decodeRuns (first :: rest.dropLast) := by
          show List.replicate (first.2 + lastRun.2) first.1 ++ decodeRuns rest.dropLast =
            List.replicate lastRun.2 lastRun.1 ++ decodeRuns (first :: rest.dropLast)
          rw [decodeRuns_cons, Nat.add_comm first.2 _, List.replicate_add, hc,
            List.append_assoc]
        rw [hrepl]
        rw [List.rotate_eq_drop_append_take
          (by simp only [List.length_cons] at hlen ⊢; omega)]
        rw [← hX, List.drop_left, List.take_left]

/-- A run list of length at least two whose adjacent values differ and whose
head and last values differ has no equal circularly-consecutive values. -/
lemma noCirc_of_chain (l : List (Nat × Nat)) (h2 : 2 ≤ l.length)
    (hch : List.Chain' (fun r s => r.1 ≠ s.1) l)
    (hhl : ∀ x ∈ l.head?, ∀ y ∈ l.getLast?, x.1 ≠ y.1) :
    noCircAdjacentEqualValues l := by
  intro i hi
  by_cases hlt : i + 1 < l.length
  · rw [Nat.mod_eq_of_lt hlt]
    have hget := List.chain'_iff_get.mp hch i (by omega)
    rw [List.getD_eq_getElem l (0, 0) hi, List.getD_eq_getElem l (0, 0) hlt]
    simpa [List.get_eq_getElem] using hget
  · have hmod : (i + 1) % l.length = 0 := by
      rw [show i + 1 = l.length from by omega]
      exact Nat.mod_self _
    rw [hmod]
    rcases l with _ | ⟨x, xs⟩
    · simp at h2
    · have hieq : i = (x :: xs).length - 1 := by omega
      have hD0 : (x :: xs).getD 0 (0, 0) = x := rfl
      have hDlast : (x :: xs).getD i (0, 0) =
          (x :: xs).getLast (List.cons_ne_nil x xs) := by
        rw [hieq]
        exact getD_length_sub_one (0, 0) (x :: xs) (List.cons_ne_nil x xs)
      rw [hD0, hDlast]
      have hx : x ∈ (x :: xs).head? := by simp
      have hy : (x :: xs).getLast (List.cons_ne_nil x xs) ∈ (x :: xs).getLast? := by
        rw [List.getLast?_eq_getLast _ (List.cons_ne_nil x xs)]
        simp
      exact (hhl x hx _ hy).symm

/-- Whenever `get_slots` returns a run list, no two circularly consecutive
runs have equal bit value. -/
lemma noCirc_get_slots (p : List Nat) (l : List (Nat × Nat))
    (h : get_slots p = some l) : noCircAdjacentEqualValues l := by
  obtain ⟨first, rest, lastRun, hr, hne, hlastEq, hch, hcase⟩ :=
    get_slots_some_structure p l h
  rcases hcase with ⟨hc, hl⟩ | ⟨hc, hdlne, hl⟩
  · subst hl
    apply noCirc_of_chain
    · rcases rest with _ | ⟨x, xs⟩
      · exact absurd rfl hne
      · simp only [List.length_cons]; omega
    · exact hch
    · intro x hx y hy
      simp at hx
      rw [List.getLast?_eq_getLast _ (List.cons_ne_nil first rest)] at hy
      simp at hy
      subst hx
      subst hy
      rw [hlastEq]
      exact hc
  · subst hl
    have hdl : (first :: rest).dropLast = first :: rest.dropLast := by
      rcases rest with _ | ⟨x, xs⟩
      · exact absurd rfl hne
      · rfl
    have hsplit : first :: rest = (first :: rest.dropLast) ++ [lastRun] := by
      rw [← hlastEq, ← hdl]
      exact (List.dropLast_append_getLast _).symm
    rw [hsplit, List.chain'_append] at hch
    obtain ⟨hchl, _, hconn⟩ := hch
    apply noCirc_of_chain
    · rcases hrd : rest.dropLast with _ | ⟨x, xs⟩
      · exact absurd hrd hdlne
      · simp only [List.length_cons]; omega
    · rcases List.chain'_cons'.mp hchl with ⟨hhead, htail⟩
      exact List.chain'_cons'.mpr ⟨fun y hy => hhead y hy, htail⟩
    · intro x hx y hy
      simp at hx
      rw [List.getLast?_eq_getLast _
        (List.cons_ne_nil (first.1, first.2 + lastRun.2) rest.dropLast)] at hy
      simp at hy
      rw [List.getLast_cons hdlne] at hy
      have hgl : rest.dropLast.getLast hdlne ∈ (first :: rest.dropLast).getLast? := by
        rw [List.getLast?_eq_getLast _ (List.cons_ne_nil first rest.dropLast),
          List.getLast_cons hdlne]
        simp
      have hlr : lastRun ∈ ([lastRun] : List (Nat × Nat)).head? := by simp
      have hd := hconn _ hgl lastRun hlr
      subst hx
      subst hy
      show first.1 ≠ (rest.dropLast.getLast hdlne).1
      rw [hc]
      exact hd.symm

lemma countInner_eq_innerT (t : List Nat) : ∀ a : Nat,
    (List.range t.length).countP
      (fun i => decide ((a :: t).getD i 0 ≠ (a :: t).getD (i + 1) 0)) =
      innerT (a :: t) := by
  induction t with
  | nil => intro a; simp [innerT]
  | cons b t' ih =>
    intro a
    rw [show (b :: t').length = t'.length + 1 from rfl, List.range_succ_eq_map,
      List.countP_cons, List.countP_map]
    have hcomp : ((fun i => decide ((a :: b :: t').getD i 0 ≠ (a :: b :: t').getD (i + 1) 0))
          ∘ Nat.succ) =
        fun i => decide ((b :: t').getD i 0 ≠ (b :: t').getD (i + 1) 0) := by
      funext i
      rfl
    rw [hcomp, ih b]
    by_cases hab : a = b
    · simp [innerT, hab]
    · simp only [innerT, if_neg hab]
      have : decide ((a :: b :: t').getD 0 0 ≠ (a :: b :: t').getD 1 0) = true := by
        simpa using hab
      rw [this]
      simp
      omega

/-- The circular transition count of a nonempty pattern splits into the
inner transitions plus the wrap-around transition. -/
lemma circularTransitions_cons (a : Nat) (t : List Nat) :
    circularTransitions (a :: t) =
      innerT (a :: t) +
        (if (a :: t).getLast (List.cons_ne_nil a t) = a then 0 else 1) := by
  unfold circularTransitions
  rw [show (a :: t).length = t.length + 1 from rfl, List.range_succ, List.countP_append]
  have h1 : (List.range t.length).countP
      (fun i => decide ((a :: t).getD i 0 ≠
        (a :: t).getD ((i + 1) % (t.length + 1)) 0)) = innerT (a :: t) := by
    rw [List.countP_congr, countInner_eq_innerT t a]
    intro i hi
    rw [List.mem_range] at hi
    rw [Nat.mod_eq_of_lt (by omega)]
  have hmod : (t.length + 1) % (t.length + 1) = 0 := Nat.mod_self _
  have hD : (a :: t).getD t.length 0 = (a :: t).getLast (List.cons_ne_nil a t) := by
    have := getD_length_sub_one 0 (a :: t) (List.cons_ne_nil a t)
    simpa using this
  have hD0 : (a :: t).getD 0 0 = a := rfl
  have h2 : ([t.length] : List Nat).countP
      (fun i => decide ((a :: t).getD i 0 ≠
        (a :: t).getD ((i + 1) % (t.length + 1)) 0)) =
      (if (a :: t).getLast (List.cons_ne_nil a t) = a then 0 else 1) := by
    simp only [List.countP_cons, List.countP_nil, hmod, hD, hD0]
    by_cases hEq : (a :: t).getLast (List.cons_ne_nil a t) = a
    · simp [hEq]
    · simp [hEq]
  rw [h1, h2]

/-- Whenever `get_slots` returns a run list, the number of runs equals the
number of circular bit transitions of the pattern. -/
lemma length_get_slots (p : List Nat) (l : List (Nat × Nat))
    (h : get_slots p = some l) : l.length = circularTransitions p := by
  obtain ⟨first, rest, lastRun, hr, hne, hlastEq, _, hcase⟩ :=
    get_slots_some_structure p l h
  rcases p with _ | ⟨a, t⟩
  · simp [rawScan, rawScanAux] at hr
  · have hsl : scanList 1 (a :: t) = first :: rest := by
      rw [← rawScan_eq_scanList, hr]
    have hlenraw : (first :: rest).length = innerT (a :: t) + 1 := by
      rw [← hsl]
      exact length_scanList t 1 a
    have hfirst : first.1 = a := by
      have := scanList_head_fst t 1 a
      rw [hsl] at this
      simpa using this
    have hlastval : lastRun.1 = (a :: t).getLast (List.cons_ne_nil a t) := by
      have := scanList_getLast_fst t 1 a
      rw [hsl, List.getLast?_eq_getLast _ (List.cons_ne_nil first rest), hlastEq,
        List.getLast?_eq_getLast _ (List.cons_ne_nil a t)] at this
      simpa using this
    rw [circularTransitions_cons a t]
    rcases hcase with ⟨hc, hl⟩ | ⟨hc, hdlne, hl⟩
    · have hne2 : ¬ (a :: t).getLast (List.cons_ne_nil a t) = a := by
        rw [← hlastval, ← hfirst]
        exact fun hEq => hc hEq.symm
      rw [if_neg hne2, hl]
      simp only [List.length_cons] at hlenraw ⊢
      omega
    · have hEq2 : (a :: t).getLast (List.cons_ne_nil a t) = a := by
        rw [← hlastval, ← hfirst]
        exact hc.symm
      rw [if_pos hEq2, hl]
      have hld : rest.dropLast.length = rest.length - 1 := List.length_dropLast rest
      have hrl : 1 ≤ rest.length := by
        rcases rest with _ | ⟨x, xs⟩
        · exact absurd rfl hne
        · simp only [List.length_cons]; omega
      simp only [List.length_cons] at hlenraw ⊢
      omega

lemma scanList_replicate (b : Nat) :
    ∀ k cur, scanList cur (b :: List.replicate k b) = [(b, cur + k)] := by
  intro k
  induction k with
  | zero => intro cur; simp [scanList]
  | succ k ih =>
    intro cur
    rw [show List.replicate (k + 1) b = b :: List.replicate k b from rfl]
    rw [show scanList cur (b :: b :: List.replicate k b) =
      scanList (cur + 1) (b :: List.replicate k b) from by simp [scanList]]
    rw [ih (cur + 1)]
    have : cur + 1 + k = cur + (k + 1) := by omega
    rw [this]

/-- On an all-identical pattern the scanning loop emits exactly one run
covering the whole pattern. -/
lemma rawScan_replicate (b n : Nat) (h : 0 < n) :
    rawScan (List.replicate n b) = [(b, n)] := by
  rcases n with _ | k
  · omega
  · rw [rawScan_eq_scanList,
      show List.replicate (k + 1) b = b :: List.replicate k b from rfl,
      scanList_replicate b k 1]
    have : 1 + k = k + 1 := by omega
    rw [this]

/-- On an all-identical pattern the boundary merge fires on the singleton
run list and the function fails instead of returning. -/
lemma get_slots_replicate (b n : Nat) (h : 0 < n) :
    get_slots (List.replicate n b) = none :=
  get_slots_of_single _ _ (rawScan_replicate b n h)

lemma produce_slots_angles_chain {α : Type} [Semiring α] (u : α) :
    ∀ (l : List (Nat × Nat)) (s : α) (i : Nat),
      i + 1 < (produce_slots_angles u s l).length →
      ((produce_slots_angles u s l).getD i (0, 0)).1 +
          ((produce_slots_angles u s l).getD i (0, 0)).2 =
        ((produce_slots_angles u s l).getD (i + 1) (0, 0)).1 := by
  intro l
  induction l with
  | nil => intro s i hi; simp [produce_slots_angles] at hi
  | cons x t ih =>
    intro s i hi
    rcases t with _ | ⟨y, t'⟩
    · simp [produce_slots_angles] at hi
    · rcases i with _ | j
      · rfl
      · have hi' : j + 1 <
            (produce_slots_angles u (s + (x.2 : α) * u) (y :: t')).length := by
          simp only [produce_slots_angles, List.length_cons] at hi ⊢
          omega
        exact ih (s + (x.2 : α) * u) j hi'

lemma produce_slots_angles_sum {α : Type} [CommSemiring α] (u : α) :
    ∀ (l : List (Nat × Nat)) (s : α),
      ((produce_slots_angles u s l).map Prod.snd).sum = (sumLengths l : α) * u := by
  intro l
  induction l with
  | nil => intro s; simp [produce_slots_angles, sumLengths]
  | cons x t ih =>
    intro s
    rw [show produce_slots_angles u s (x :: t) =
      (s, (x.2 : α) * u) :: produce_slots_angles u (s + (x.2 : α) * u) t from rfl]
    rw [List.map_cons, List.sum_cons, ih, sumLengths_cons]
    push_cast
    ring

/-- The assertion `sorted(set(bits_pattern)) == [0, 1]` holds exactly when
every element is 0 or 1 and both values occur. -/
lemma patternValid_iff (p : List Nat) :
    patternValid p = true ↔ ((∀ b ∈ p, b = 0 ∨ b = 1) ∧ 0 ∈ p ∧ 1 ∈ p) := by
  unfold patternValid
  rw [decide_eq_true_eq]
  constructor
  · intro h
    have hperm : List.Perm (p.dedup.insertionSort (· ≤ ·)) p.dedup :=
      List.perm_insertionSort _ _
    have hmem : ∀ x : Nat, x ∈ p ↔ (x = 0 ∨ x = 1) := by
      intro x
      have hstep : x ∈ p.dedup ↔ x ∈ ([0, 1] : List Nat) := by
        rw [← h]
        exact hperm.mem_iff.symm
      rw [← List.mem_dedup, hstep]
      simp
    exact ⟨fun b hb => (hmem b).1 hb, (hmem 0).2 (Or.inl rfl), (hmem 1).2 (Or.inr rfl)⟩
  · rintro ⟨hall, h0, h1⟩
    have hnd : (p.dedup.insertionSort (· ≤ ·)).Nodup :=
      (List.perm_insertionSort _ _).symm.nodup (List.nodup_dedup p)
    have hperm2 : List.Perm (p.dedup.insertionSort (· ≤ ·)) [0, 1] := by
      apply (List.perm_ext_iff_of_nodup hnd (by decide)).2
      intro x
      rw [(List.perm_insertionSort _ _).mem_iff, List.mem_dedup]
      constructor
      · intro hx
        simpa using hall x hx
      · intro hx
        simp at hx
        rcases hx with rfl | rfl
        · exact h0
        · exact h1
    exact List.eq_of_perm_of_sorted hperm2 (List.sorted_insertionSort _ _) (by decide)

/-- C1 (counterexample): on the valid all-zero pattern `[0,0,0,0]` — nonempty,
every element in {0,1} — `get_slots` fails (the boundary merge deletes the
only run and the re-assignment raises `IndexError`), so no run list whose
lengths sum to `N` is returned, refuting the claim as stated. -/
theorem sum_run_lengths_fails_on_all_zero :
    (∀ b ∈ ([0, 0, 0, 0] : List Nat), b = 0 ∨ b = 1) ∧
    ([0, 0, 0, 0] : List Nat) ≠ [] ∧
    ¬ ∃ l, get_slots [0, 0, 0, 0] = some l ∧
      sumLengths l = ([0, 0, 0, 0] : List Nat).length := by
  refine ⟨by decide, by decide, ?_⟩
  rintro ⟨l, hl, _⟩
  rw [show get_slots [0, 0, 0, 0] = none from by decide] at hl
  exact Option.noConfusion hl

/-- C1 (amended): for every valid bit pattern for which `get_slots` returns
a run list (equivalently, every valid pattern that is not all-identical),
the sum of the run lengths equals the length `N` of the pattern. -/
theorem sum_run_lengths_eq_pattern_length (p : List Nat) (l : List (Nat × Nat))
    (hb : ∀ b ∈ p, b = 0 ∨ b = 1) (hp : p ≠ []) (h : get_slots p = some l) :
    sumLengths l = p.length :=
  sumLengths_get_slots p l h

/-- C1 (witness): the amended claim at the concrete valid pattern `[0,0,1]`. -/
theorem sum_run_lengths_eq_pattern_length_witness :
    (∀ b ∈ ([0, 0, 1] : List Nat), b = 0 ∨ b = 1) ∧
    ([0, 0, 1] : List Nat) ≠ [] ∧
    get_slots [0, 0, 1] = some [(0, 2), (1, 1)] ∧
    sumLengths [(0, 2), (1, 1)] = ([0, 0, 1] : List Nat).length :=
  ⟨by decide, by decide, by decide,
    sum_run_lengths_eq_pattern_length [0, 0, 1] [(0, 2), (1, 1)]
      (by decide) (by decide) (by decide)⟩

/-- C2 (counterexample): on the valid all-one pattern `[1,1]` `get_slots`
fails (singleton raw run list, merge crash), so there are no returned runs
to concatenate, refuting the round-trip claim as stated for every valid
pattern. -/
theorem decode_runs_fails_on_all_one :
    (∀ b ∈ ([1, 1] : List Nat), b = 0 ∨ b = 1) ∧
    ([1, 1] : List Nat) ≠ [] ∧
    ¬ ∃ l, get_slots [1, 1] = some l := by
  refine ⟨by decide, by decide, ?_⟩
  rintro ⟨l, hl⟩
  rw [show get_slots [1, 1] = none from by decide] at hl
  exact Option.noConfusion hl

/-- C2 (amended): for every valid bit pattern for which `get_slots` returns
a run list, concatenating each run's bit value repeated run-length times, in
run order, reproduces the pattern read circularly from some starting offset
`s < N` (the start of the first emitted run after the boundary merge). -/
theorem decode_runs_reproduce_rotated (p : List Nat) (l : List (Nat × Nat))
    (hb : ∀ b ∈ p, b = 0 ∨ b = 1) (hp : p ≠ []) (h : get_slots p = some l) :
    ∃ s, s < p.length ∧ decodeRuns l = p.rotate s :=
  decodeRuns_get_slots p l h

/-- C2 (witness): the amended claim at the concrete valid pattern
`[1,0,1,1]`, whose boundary merge fires. -/
theorem decode_runs_reproduce_rotated_witness :
    (∀ b ∈ ([1, 0, 1, 1] : List Nat), b = 0 ∨ b = 1) ∧
    ([1, 0, 1, 1] : List Nat) ≠ [] ∧
    get_slots [1, 0, 1, 1] = some [(1, 3), (0, 1)] ∧
    ∃ s, s < ([1, 0, 1, 1] : List Nat).length ∧
      decodeRuns [(1, 3), (0, 1)] = ([1, 0, 1, 1] : List Nat).rotate s :=
  ⟨by decide, by decide, by decide,
    decode_runs_reproduce_rotated [1, 0, 1, 1] [(1, 3), (0, 1)]
      (by decide) (by decide) (by decide)⟩

/-- C3: for every valid bit pattern, in the run list returned by
`get_slots` after the boundary merge, no two circularly consecutive runs
(each run and its successor, including the last run followed by the first)
have equal bit value. -/
theorem no_circularly_adjacent_equal_values (p : List Nat) (l : List (Nat × Nat))
    (hb : ∀ b ∈ p, b = 0 ∨ b = 1) (hp : p ≠ []) (h : get_slots p = some l) :
    noCircAdjacentEqualValues l :=
  noCirc_get_slots p l h

/-- C3 (witness): the claim at the concrete valid pattern `[0,1]`. -/
theorem no_circularly_adjacent_equal_values_witness :
    (∀ b ∈ ([0, 1] : List Nat), b = 0 ∨ b = 1) ∧
    ([0, 1] : List Nat) ≠ [] ∧
    get_slots [0, 1] = some [(0, 1), (1, 1)] ∧
    noCircAdjacentEqualValues [(0, 1), (1, 1)] :=
  ⟨by decide, by decide, by decide,
    no_circularly_adjacent_equal_values [0, 1] [(0, 1), (1, 1)]
      (by decide) (by decide) (by decide)⟩

/-- C4 (counterexample): on the single-bit pattern `[1]` (spec scenario D)
the raw scan does emit the single run `(1, 1)`, but `get_slots` does not
return it: the boundary-merge condition fires on the singleton list, deletes
the sole run, and the re-assignment raises `IndexError` (`none`), refuting
the claim that the merge is a guarded no-op. -/
theorem single_bit_pattern_crashes :
    rawScan [1] = [(1, 1)] ∧ get_slots [1] ≠ some [(1, 1)] ∧ get_slots [1] = none :=
  ⟨by decide, by decide, by decide⟩

/-- C4 (amended): for every all-identical pattern (length `N ≥ 1`), the scan
emits exactly the single run `(bit, N)`, but the boundary-merge step then
fires on the single-element run list — the first and last run are the same
element — deletes it, and `get_slots` fails with an `IndexError` instead of
returning the run list. -/
theorem all_identical_scan_one_run_merge_crashes (b n : Nat) (h : 0 < n) :
    rawScan (List.replicate n b) = [(b, n)] ∧
    get_slots (List.replicate n b) = none :=
  ⟨rawScan_replicate b n h, get_slots_replicate b n h⟩

/-- C4 (witness): the amended claim at the concrete all-zero pattern of
length 4 (spec scenario A). -/
theorem all_identical_scan_one_run_merge_crashes_witness :
    0 < 4 ∧
    (rawScan (List.replicate 4 0) = [(0, 4)] ∧
      get_slots (List.replicate 4 0) = none) :=
  ⟨by decide, all_identical_scan_one_run_merge_crashes 0 4 (by decide)⟩

/-- C5 (counterexample): the nonempty all-one pattern `[1,1,1]` has every
element in {0,1}, yet the validation `sorted(set(pattern)) == [0, 1]`
rejects it, refuting the claimed "if and only if" (which would have it
pass). -/
theorem validation_rejects_all_one_pattern :
    (∀ b ∈ ([1, 1, 1] : List Nat), b = 0 ∨ b = 1) ∧
    ([1, 1, 1] : List Nat) ≠ [] ∧
    patternValid [1, 1, 1] = false :=
  ⟨by decide, by decide, by decide⟩

/-- C5 (amended): the pattern validation passes if and only if every
element is in {0,1} and both bit values occur; equivalently it fails iff
some element is outside {0,1}, the pattern is empty, or the pattern is
all-zero / all-one (missing one of the two values). -/
theorem patternValid_characterization (p : List Nat) :
    patternValid p = true ↔ ((∀ b ∈ p, b = 0 ∨ b = 1) ∧ 0 ∈ p ∧ 1 ∈ p) :=
  patternValid_iff p

/-- C6: for every valid bit pattern of length `N` for which `get_slots`
returns a run list, the angle layout with unit angle `2π/N` starts at angle
0, each run's start angle equals the previous run's start angle plus its
sweep, and the sweeps sum to `2π`: the (start, sweep) intervals partition
the full circle. -/
theorem angle_layout_partitions_circle (p : List Nat) (l : List (Nat × Nat))
    (hb : ∀ b ∈ p, b = 0 ∨ b = 1) (hp : p ≠ []) (h : get_slots p = some l) :
    ((produce_slots_angles (bit_length_angle Real.pi p.length) 0 l).getD 0 (0, 0)).1 = 0 ∧
    (∀ i, i + 1 < (produce_slots_angles (bit_length_angle Real.pi p.length) 0 l).length →
      ((produce_slots_angles (bit_length_angle Real.pi p.length) 0 l).getD i (0, 0)).1 +
          ((produce_slots_angles (bit_length_angle Real.pi p.length) 0 l).getD i (0, 0)).2 =
        ((produce_slots_angles (bit_length_angle Real.pi p.length) 0 l).getD (i + 1) (0, 0)).1) ∧
    ((produce_slots_angles (bit_length_angle Real.pi p.length) 0 l).map Prod.snd).sum =
      2 * Real.pi := by
  refine ⟨?_, ?_, ?_⟩
  · have hlne : l ≠ [] := by
      obtain ⟨f, r, lr, _, _, _, _, hc⟩ := get_slots_some_structure p l h
      rcases hc with ⟨_, hl⟩ | ⟨_, _, hl⟩ <;> subst hl <;> simp
    rcases l with _ | ⟨x, ls⟩
    · exact absurd rfl hlne
    · rfl
  · intro i hi
    exact produce_slots_angles_chain _ l 0 i hi
  · rw [produce_slots_angles_sum _ l 0, sumLengths_get_slots p l h]
    unfold bit_length_angle
    have hlen : p.length ≠ 0 := by
      rcases p with _ | ⟨a, t⟩
      · exact absurd rfl hp
      · simp
    have hn : (p.length : ℝ) ≠ 0 := Nat.cast_ne_zero.mpr hlen
    field_simp

/-- C6 (witness): the claim at the concrete valid pattern `[1,0,0,1]`. -/
theorem angle_layout_partitions_circle_witness :
    (∀ b ∈ ([1, 0, 0, 1] : List Nat), b = 0 ∨ b = 1) ∧
    ([1, 0, 0, 1] : List Nat) ≠ [] ∧
    get_slots [1, 0, 0, 1] = some [(1, 2), (0, 2)] ∧
    (((produce_slots_angles (bit_length_angle Real.pi ([1, 0, 0, 1] : List Nat).length) 0
        [(1, 2), (0, 2)]).getD 0 (0, 0)).1 = 0 ∧
      (∀ i, i + 1 < (produce_slots_angles
          (bit_length_angle Real.pi ([1, 0, 0, 1] : List Nat).length) 0
          [(1, 2), (0, 2)]).length →
        ((produce_slots_angles (bit_length_angle Real.pi ([1, 0, 0, 1] : List Nat).length) 0
            [(1, 2), (0, 2)]).getD i (0, 0)).1 +
            ((produce_slots_angles (bit_length_angle Real.pi ([1, 0, 0, 1] : List Nat).length) 0
              [(1, 2), (0, 2)]).getD i (0, 0)).2 =
          ((produce_slots_angles (bit_length_angle Real.pi ([1, 0, 0, 1] : List Nat).length) 0
            [(1, 2), (0, 2)]).getD (i + 1) (0, 0)).1) ∧
      ((produce_slots_angles (bit_length_angle Real.pi ([1, 0, 0, 1] : List Nat).length) 0
          [(1, 2), (0, 2)]).map Prod.snd).sum = 2 * Real.pi) :=
  ⟨by decide, by decide, by decide,
    angle_layout_partitions_circle [1, 0, 0, 1] [(1, 2), (0, 2)]
      (by decide) (by decide) (by decide)⟩

/-- C7: on the concrete pattern `1001` the raw scan gives
`[(1,1),(0,2),(1,1)]`, the boundary merge yields `[(1,2),(0,2)]`, and the
angle layout is `[(0, π), (π, π)]`. -/
theorem scenario_1001 :
    rawScan [1, 0, 0, 1] = [(1, 1), (0, 2), (1, 1)] ∧
    get_slots [1, 0, 0, 1] = some [(1, 2), (0, 2)] ∧
    produce_slots_angles (bit_length_angle Real.pi 4) 0 [(1, 2), (0, 2)] =
      [(0, Real.pi), (Real.pi, Real.pi)] := by
  refine ⟨by decide, by decide, ?_⟩
  have hu : (2 : ℝ) * bit_length_angle Real.pi 4 = Real.pi := by
    unfold bit_length_angle
    push_cast
    ring
  simp [produce_slots_angles, hu]

/-- C8 (counterexample): the hard-coded pattern has 60 characters, not 63,
so `get_slots` cannot yield a run list whose lengths sum to 63. -/
theorem hard_coded_pattern_not_63 :
    bits_pattern.length ≠ 63 ∧
    ¬ ∃ l, get_slots bits_pattern = some l ∧ sumLengths l = 63 := by
  refine ⟨by decide, ?_⟩
  rintro ⟨l, hl, hs⟩
  rw [show get_slots bits_pattern =
    some [(0, 13), (1, 3), (0, 6), (1, 2), (0, 6), (1, 13), (0, 3), (1, 6), (0, 2), (1, 6)]
    from by decide] at hl
  have := Option.some.inj hl
  subst this
  exact absurd hs (by decide)

/-- C8 (amended): the hard-coded 60-character pattern (`N = 60`) yields the
run list `[(0,13),(1,3),(0,6),(1,2),(0,6),(1,13),(0,3),(1,6),(0,2),(1,6)]`,
whose lengths sum to 60 and in which no two circularly adjacent runs have
equal bit value. -/
theorem hard_coded_pattern_runs :
    bits_pattern.length = 60 ∧
    get_slots bits_pattern =
      some [(0, 13), (1, 3), (0, 6), (1, 2), (0, 6), (1, 13), (0, 3), (1, 6), (0, 2), (1, 6)] ∧
    sumLengths [(0, 13), (1, 3), (0, 6), (1, 2), (0, 6), (1, 13), (0, 3), (1, 6), (0, 2), (1, 6)] =
      bits_pattern.length ∧
    noCircAdjacentEqualValues
      [(0, 13), (1, 3), (0, 6), (1, 2), (0, 6), (1, 13), (0, 3), (1, 6), (0, 2), (1, 6)] :=
  ⟨by decide, by decide, by decide, by unfold noCircAdjacentEqualValues; decide⟩

/-- C9: for every pattern of length `N ≥ 2` containing at least one 0 and
one 1, `get_slots` returns a run list whose number of runs equals the
number of circular bit transitions of the pattern. -/
theorem run_count_eq_circular_transitions (p : List Nat)
    (h2 : 2 ≤ p.length) (hb : ∀ b ∈ p, b = 0 ∨ b = 1)
    (h0 : 0 ∈ p) (h1 : 1 ∈ p) :
    ∃ l, get_slots p = some l ∧ l.length = circularTransitions p := by
  obtain ⟨l, hl⟩ := get_slots_isSome_of_both p h0 h1
  exact ⟨l, hl, length_get_slots p l hl⟩

/-- C9 (witness): the claim at the concrete pattern `[0,1,1]`. -/
theorem run_count_eq_circular_transitions_witness :
    2 ≤ ([0, 1, 1] : List Nat).length ∧
    (∀ b ∈ ([0, 1, 1] : List Nat), b = 0 ∨ b = 1) ∧
    (0 : Nat) ∈ ([0, 1, 1] : List Nat) ∧ (1 : Nat) ∈ ([0, 1, 1] : List Nat) ∧
    ∃ l, get_slots [0, 1, 1] = some l ∧
      l.length = circularTransitions [0, 1, 1] :=
  ⟨by decide, by decide, by decide, by decide,
    run_count_eq_circular_transitions [0, 1, 1]
      (by decide) (by decide) (by decide) (by decide)⟩

/-- C10: for all positive parameter values the derived radii satisfy
`head_center_distance + head_radius + head_to_disk_gap =
slots_disk_outer_radius` and `head_center_distance - head_radius -
head_to_disk_gap = slots_disk_inner_radius`: every head circle fits
radially inside the slot annulus with clearance exactly `head_to_disk_gap`
on both sides. -/
theorem head_fits_in_slot_annulus
    (sensor_outer_diameter ports_disk_to_slots_gap head_diameter head_to_disk_gap : ℝ)
    (h1 : 0 < sensor_outer_diameter) (h2 : 0 < ports_disk_to_slots_gap)
    (h3 : 0 < head_diameter) (h4 : 0 < head_to_disk_gap) :
    head_center_distance sensor_outer_diameter ports_disk_to_slots_gap
          head_diameter head_to_disk_gap +
        head_radius head_diameter + head_to_disk_gap =
      slots_disk_outer_radius sensor_outer_diameter ports_disk_to_slots_gap ∧
    head_center_distance sensor_outer_diameter ports_disk_to_slots_gap
          head_diameter head_to_disk_gap -
        head_radius head_diameter - head_to_disk_gap =
      slots_disk_inner_radius sensor_outer_diameter ports_disk_to_slots_gap
        head_diameter head_to_disk_gap := by
  constructor <;>
    (unfold head_center_distance slots_disk_inner_radius slots_disk_outer_radius
      sensor_outer_radius head_radius
     ring)

/-- C10 (witness): the claim at the concrete positive parameter values
1, 1, 1, 1. -/
theorem head_fits_in_slot_annulus_witness :
    (0 : ℝ) < 1 ∧ (0 : ℝ) < 1 ∧ (0 : ℝ) < 1 ∧ (0 : ℝ) < 1 ∧
    (head_center_distance (1 : ℝ) 1 1 1 + head_radius 1 + 1 =
        slots_disk_outer_radius 1 1 ∧
      head_center_distance (1 : ℝ) 1 1 1 - head_radius 1 - 1 =
        slots_disk_inner_radius 1 1 1 1) :=
  ⟨one_pos, one_pos, one_pos, one_pos,
    head_fits_in_slot_annulus 1 1 1 1 one_pos one_pos one_pos one_pos⟩

example : rawScan [1, 0, 0, 1] = [(1, 1), (0, 2), (1, 1)] := by decide
example : get_slots [1, 0, 0, 1] = some [(1, 2), (0, 2)] := by decide
example : get_slots [0, 0, 0, 0] = none := by decide
example : get_slots [1] = none := by decide
example : get_slots [] = none := by decide
example : patternValid [0, 0, 0, 0] = false := by decide
example : patternValid [0, 1, 2] = false := by decide
example : patternValid [0, 1, 1] = true := by decide
example : patternValid [] = false := by decide
example : bits_pattern.length = 60 := by decide
example : get_slots bits_pattern =
    some [(0,13),(1,3),(0,6),(1,2),(0,6),(1,13),(0,3),(1,6),(0,2),(1,6)] := by decide
example : circularTransitions [1, 0, 0, 1] = 2 := by decide
example : decodeRuns [(1, 2), (0, 2)] = [1, 1, 0, 0] := by decide
example : scanList 1 [1, 0, 0, 1] = [(1, 1), (0, 2), (1, 1)] := by decide
example : innerT [1, 0, 0, 1] = 2 := by decide
